import Mathlib

/-!
# Verification of `what_if.py`

A shallow embedding of `src/what_if_miss_ten_best_worst_days/what_if.py`.

The source program reads a CSV of daily OHLC records, selects the `n` best
(or worst) trading days by day-over-day percentage change (`find_days`),
and simulates the portfolio value when those days are skipped
(`perf_if_missing_days`).

Modelling choices:
* prices are rationals (`ℚ`), exact arithmetic in place of Python floats;
* a CSV `DictReader` row stream is a `List DailyRecord`; `next()` on an
  exhausted reader (Python `StopIteration`) is modelled by returning `none`;
* Python's in-place stable `list.sort(key=..., reverse=find_best)` is
  modelled by `List.insertionSort` with the corresponding total preorder:
  insertion sort is stable, and a stable sort is determined by the key order,
  so this is observationally the same permutation Python produces;
* `perf_if_missing_days` prints two fractions; the embedding returns the
  pair `(total_changed_percentage, changed_percentage_if_missing_days)`.
-/

namespace WhatIf

/-- One trading day, as consumed by the core (`date`, `open`, `close`;
the remaining CSV columns are never read by the core). -/
structure DailyRecord where
  date : String
  open_price : ℚ
  close_price : ℚ
deriving DecidableEq, Repr

/-- `DayPerf = namedtuple("DayPerf", ["date", "change_percentage"])`. -/
structure DayPerf where
  date : String
  change_percentage : ℚ
deriving DecidableEq, Repr

/-- `CSV_FIELD_NAMES` from the source. -/
def CSV_FIELD_NAMES : List String :=
  ["date", "open", "high", "low", "close", "adj close", "volume"]

/-- Outcome of `validate_header`: success, the explicit
`ValueError` raised on a name mismatch (the spec's SchemaValidationError),
or the `AttributeError` crash that occurs when a dict value is not a string
(`None.lower()` for a short row, `list.lower()` for an overlong row). -/
inductive HeaderResult where
  | ok : HeaderResult
  | schemaError (expected actual : String) : HeaderResult
  | attrError : HeaderResult
deriving DecidableEq, Repr

/-- Whether the result is the explicit schema `ValueError`. -/
def HeaderResult.isSchemaError : HeaderResult → Bool
  | .schemaError _ _ => true
  | _ => false

/-- Python's `str.lower()`: character-wise ASCII lowercasing (the header
names involved are ASCII, where `str.lower` is exactly char-by-char
lowercasing). -/
def lower (s : String) : String := String.mk (s.data.map Char.toLower)

/-- The loop of `validate_header` over `header_row.items()`.  `DictReader`
zips `CSV_FIELD_NAMES` with the cells of the first row: missing cells become
`None` (so `.lower()` raises `AttributeError`), extra cells are collected in
a list under the `None` restkey (likewise `AttributeError` on `.lower()`). -/
def validateGo : List String → List String → HeaderResult
  | [], [] => .ok
  | [], _ :: _ => .attrError
  | _ :: _, [] => .attrError
  | e :: es, a :: as =>
    if e ≠ lower a then .schemaError e (lower a) else validateGo es as

/-- `validate_header`, applied to the cell values of the first CSV row. -/
def validate_header (cells : List String) : HeaderResult :=
  validateGo CSV_FIELD_NAMES cells

/-- The change computation `(close - reference) / reference` shared by every
day of `find_days`. -/
def dayChange (ref : ℚ) (day : DailyRecord) : ℚ :=
  (day.close_price - ref) / ref

/-- The key order used by `chosen_days.sort(key=lambda x: x[1],
reverse=find_best)`: descending by `change_percentage` when `find_best`,
ascending otherwise. -/
def sortRel (find_best : Bool) (a b : DayPerf) : Prop :=
  if find_best then b.change_percentage ≤ a.change_percentage
  else a.change_percentage ≤ b.change_percentage

instance (fb : Bool) : DecidableRel (sortRel fb) := fun a b => by
  unfold sortRel
  exact inferInstance

instance (fb : Bool) : IsTotal DayPerf (sortRel fb) := by
  constructor
  intro a b
  cases fb <;> simp [sortRel] <;> exact le_total _ _

instance (fb : Bool) : IsTrans DayPerf (sortRel fb) := by
  constructor
  intro a b c
  cases fb
  · simp only [sortRel, if_neg Bool.false_ne_true]
    exact fun h1 h2 => le_trans h1 h2
  · simp only [sortRel, if_pos rfl]
    exact fun h1 h2 => le_trans h2 h1

/-- The `for _ in range(n - 1)` fill loop of `find_days`: every day is
appended unconditionally, the running reference advances to the day's close. -/
def seedLoop : List DailyRecord → ℚ → List DayPerf → ℚ × List DayPerf
  | [], last_closing_price, chosen_days => (last_closing_price, chosen_days)
  | day :: rest, last_closing_price, chosen_days =>
    seedLoop rest day.close_price
      (chosen_days ++ [⟨day.date, dayChange last_closing_price day⟩])

/-- The main `for day in data_dict_reader` loop of `find_days`: compute the
change, advance the reference, skip when the change does not beat the last
element of `chosen_days`, otherwise append + stable sort + pop. -/
def selectLoop (find_best : Bool) : List DailyRecord → ℚ → List DayPerf → List DayPerf
  | [], _, chosen_days => chosen_days
  | day :: rest, last_closing_price, chosen_days =>
    let change_percentage := dayChange last_closing_price day
    let boundary := (chosen_days.getLastD ⟨"", 0⟩).change_percentage
    let skip : Bool :=
      if find_best then decide (change_percentage < boundary)
      else decide (boundary < change_percentage)
    if skip then selectLoop find_best rest day.close_price chosen_days
    else
      selectLoop find_best rest day.close_price
        ((List.insertionSort (sortRel find_best)
          (chosen_days ++ [⟨day.date, change_percentage⟩])).dropLast)

/-- `find_days(data_dict_reader, n, find_best)`.  `none` models the uncaught
`StopIteration` raised when the reader has fewer than `n` records. -/
def find_days (series : List DailyRecord) (n : Nat) (find_best : Bool) :
    Option (List DayPerf) :=
  if n = 0 then some []
  else
    match series with
    | [] => none
    | first_day :: rest =>
      if rest.length < n - 1 then none
      else
        let st := seedLoop (rest.take (n - 1)) first_day.open_price
          [⟨first_day.date, dayChange first_day.open_price first_day⟩]
        some (selectLoop find_best (rest.drop (n - 1)) st.1 st.2)

/-- The `for day in data_dict_reader` loop of `perf_if_missing_days`:
state is `(value, last_close_price, missed_yesterday)`; returns the final
`(value, last_close_price)`. -/
def perfLoop (missed_days_dates : List String) :
    List DailyRecord → ℚ → ℚ → Bool → ℚ × ℚ
  | [], value, last_close_price, _ => (value, last_close_price)
  | day :: rest, value, last_close_price, missed_yesterday =>
    let v1 : ℚ :=
      if missed_yesterday ∧ day.date ∉ missed_days_dates then
        value - day.open_price
      else value
    let step : ℚ × Bool :=
      if day.date ∈ missed_days_dates then (v1 + last_close_price, true)
      else (v1, false)
    perfLoop missed_days_dates rest step.1 day.close_price step.2

/-- `perf_if_missing_days(data_dict_reader, missed_days)`; returns
`(total_changed_percentage, changed_percentage_if_missing_days)`, the two
fractions the source prints.  `none` models `StopIteration` on an empty
reader. -/
def perf_if_missing_days (series : List DailyRecord)
    (missed_days : List DayPerf) : Option (ℚ × ℚ) :=
  match series with
  | [] => none
  | first_day :: rest =>
    let open_price := first_day.open_price
    let missed_days_dates := missed_days.map DayPerf.date
    let st := perfLoop missed_days_dates rest 0 first_day.close_price false
    let value := st.1 + st.2
    some ((st.2 - open_price) / open_price, (value - open_price) / open_price)

/-- The per-day performances a scan of the series computes when the running
reference starts at `ref`: each day contributes
`(close - reference) / reference` and advances the reference to its close. -/
def perfsFrom (ref : ℚ) : List DailyRecord → List DayPerf
  | [] => []
  | day :: rest => ⟨day.date, dayChange ref day⟩ :: perfsFrom day.close_price rest

/-- The running reference after scanning `l` starting from `ref`
(the close of the last record, or `ref` when `l` is empty). -/
def lastRef (ref : ℚ) : List DailyRecord → ℚ
  | [] => ref
  | day :: rest => lastRef day.close_price rest

/-- All day performances of a series under the running-reference rule of
`find_days`: day 1 uses its own open both as reference and to seed the
running reference; later days use the previous close. -/
def dayPerfs : List DailyRecord → List DayPerf
  | [] => []
  | first_day :: rest =>
    ⟨first_day.date, dayChange first_day.open_price first_day⟩ ::
      perfsFrom first_day.open_price rest

/-- The sequence of `change_percentage` values of `dayPerfs`. -/
def changes (series : List DailyRecord) : List ℚ :=
  (dayPerfs series).map DayPerf.change_percentage


/-! ### Concrete series used as witnesses and counterexamples -/

/-- Three-day series: changes `0`, `1/10`, `1/20` under the running-reference
rule.  The seeded window `[0, 1/10]` is NOT sorted descending, so day 3
(change `1/20`) is compared against `1/10` and wrongly skipped. -/
def exC1 : List DailyRecord :=
  [⟨"d1", 100, 100⟩, ⟨"d2", 105, 110⟩, ⟨"d3", 112, 231/2⟩]

/-- Three-day series: changes `0`, `1/10`, `1/10`; day 3 ties the boundary. -/
def exC7 : List DailyRecord :=
  [⟨"d1", 100, 100⟩, ⟨"d2", 105, 110⟩, ⟨"d3", 112, 121⟩]

/-- Four-day series with a run of two missed days (`d2`, `d3`) in the middle. -/
def exC2 : List DailyRecord :=
  [⟨"d1", 100, 110⟩, ⟨"d2", 110, 90⟩, ⟨"d3", 90, 120⟩, ⟨"d4", 120, 130⟩]

/-- Two-day series whose last day is missed. -/
def exC3 : List DailyRecord :=
  [⟨"d1", 100, 110⟩, ⟨"d2", 110, 90⟩]

/-! ### Structural lemmas about the selector -/

theorem perfsFrom_length : ∀ (l : List DailyRecord) (ref : ℚ),
    (perfsFrom ref l).length = l.length
  | [], _ => rfl
  | d :: ds, ref => by simp [perfsFrom, perfsFrom_length ds d.close_price]

theorem perfsFrom_map_date : ∀ (l : List DailyRecord) (ref : ℚ),
    (perfsFrom ref l).map DayPerf.date = l.map DailyRecord.date
  | [], _ => rfl
  | d :: ds, ref => by simp [perfsFrom, perfsFrom_map_date ds d.close_price]

theorem perfsFrom_append : ∀ (l1 l2 : List DailyRecord) (ref : ℚ),
    perfsFrom ref (l1 ++ l2) = perfsFrom ref l1 ++ perfsFrom (lastRef ref l1) l2
  | [], l2, ref => rfl
  | d :: ds, l2, ref => by
    simp [perfsFrom, lastRef, perfsFrom_append ds l2 d.close_price]

theorem perfsFrom_take : ∀ (l : List DailyRecord) (m : Nat) (ref : ℚ),
    perfsFrom ref (l.take m) = (perfsFrom ref l).take m
  | [], _, _ => by simp [perfsFrom]
  | _ :: _, 0, _ => by simp [perfsFrom]
  | d :: ds, m + 1, ref => by
    simp [perfsFrom, perfsFrom_take ds m d.close_price]

theorem seedLoop_eq : ∀ (l : List DailyRecord) (lc : ℚ) (chosen : List DayPerf),
    seedLoop l lc chosen = (lastRef lc l, chosen ++ perfsFrom lc l)
  | [], lc, chosen => by simp [seedLoop, lastRef, perfsFrom]
  | d :: ds, lc, chosen => by
    simp [seedLoop, lastRef, perfsFrom, seedLoop_eq ds d.close_price]

/-- Unfolding `find_days` on a nonempty series with `0 < n ≤` series length:
the seed phase produces the first `n` day performances in scan order (not
sorted), and the main loop scans the remaining days. -/
theorem find_days_eq (first_day : DailyRecord) (rest : List DailyRecord)
    (n : Nat) (fb : Bool) (h0 : n ≠ 0) (hlen : n - 1 ≤ rest.length) :
    find_days (first_day :: rest) n fb =
      some (selectLoop fb (rest.drop (n - 1))
        (lastRef first_day.open_price (rest.take (n - 1)))
        (⟨first_day.date, dayChange first_day.open_price first_day⟩ ::
          perfsFrom first_day.open_price (rest.take (n - 1)))) := by
  have hn : ¬ rest.length < n - 1 := Nat.not_lt.mpr hlen
  simp [find_days, h0, hn, seedLoop_eq]

theorem sortRel_refl (fb : Bool) (a : DayPerf) : sortRel fb a a := by
  cases fb <;> simp [sortRel]

theorem sortRel_congr_right (fb : Bool) {a b : DayPerf} (x : DayPerf)
    (h : a.change_percentage = b.change_percentage) :
    sortRel fb x a ↔ sortRel fb x b := by
  cases fb <;> simp [sortRel, h]

/-- One step of the main loop either skips the day or inserts its
performance, re-sorts and pops. -/
theorem selectLoop_cons (fb : Bool) (day : DailyRecord) (rest : List DailyRecord)
    (lc : ℚ) (chosen : List DayPerf) :
    selectLoop fb (day :: rest) lc chosen = selectLoop fb rest day.close_price chosen
  ∨ selectLoop fb (day :: rest) lc chosen = selectLoop fb rest day.close_price
      ((List.insertionSort (sortRel fb)
        (chosen ++ [⟨day.date, dayChange lc day⟩])).dropLast) := by
  simp only [selectLoop]
  split <;> split <;> simp

/-- The main loop never changes the size of the working set: an insertion
appends one element, the stable sort keeps the length, and the pop removes
one element. -/
theorem selectLoop_length (fb : Bool) : ∀ (l : List DailyRecord) (lc : ℚ)
    (chosen : List DayPerf), (selectLoop fb l lc chosen).length = chosen.length
  | [], _, chosen => rfl
  | day :: rest, lc, chosen => by
    rcases selectLoop_cons fb day rest lc chosen with h | h <;> rw [h]
    · exact selectLoop_length fb rest day.close_price chosen
    · rw [selectLoop_length fb rest day.close_price]
      simp [List.length_dropLast, List.length_insertionSort]

/-- Every element of the main loop's result was either in the working set
already or is one of the day performances of the scanned days. -/
theorem selectLoop_subset (fb : Bool) : ∀ (l : List DailyRecord) (lc : ℚ)
    (chosen : List DayPerf) (x : DayPerf),
    x ∈ selectLoop fb l lc chosen → x ∈ chosen ++ perfsFrom lc l
  | [], _, chosen, x => by simp [selectLoop, perfsFrom]
  | day :: rest, lc, chosen, x => by
    intro hx
    rcases selectLoop_cons fb day rest lc chosen with h | h <;> rw [h] at hx
    · have hm := selectLoop_subset fb rest day.close_price chosen x hx
      simp only [perfsFrom, List.mem_append, List.mem_cons] at hm ⊢
      tauto
    · have hm := selectLoop_subset fb rest day.close_price _ x hx
      simp only [List.mem_append] at hm
      rcases hm with hm | hm
      · have h2 : x ∈ List.insertionSort (sortRel fb)
            (chosen ++ [⟨day.date, dayChange lc day⟩]) :=
          (List.dropLast_sublist _).subset hm
        have h3 : x ∈ chosen ++ [⟨day.date, dayChange lc day⟩] :=
          (List.mem_insertionSort _).1 h2
        simp only [perfsFrom, List.mem_append, List.mem_singleton,
          List.mem_cons] at h3 ⊢
        tauto
      · simp only [perfsFrom, List.mem_append, List.mem_cons]
        tauto

/-- A sorted working set stays sorted through the main loop: skipping keeps
it, and an insertion re-sorts before popping. -/
theorem selectLoop_sorted (fb : Bool) : ∀ (l : List DailyRecord) (lc : ℚ)
    (chosen : List DayPerf), chosen.Pairwise (sortRel fb) →
    (selectLoop fb l lc chosen).Pairwise (sortRel fb)
  | [], _, _ => fun h => h
  | day :: rest, lc, chosen => by
    intro h
    rcases selectLoop_cons fb day rest lc chosen with he | he <;> rw [he]
    · exact selectLoop_sorted fb rest day.close_price chosen h
    · refine selectLoop_sorted fb rest day.close_price _ ?_
      refine List.Pairwise.sublist (List.dropLast_sublist _) ?_
      exact List.sorted_insertionSort (sortRel fb) _

/-- If the dates of the working set and of the remaining days are jointly
distinct, the dates of the main loop's result are distinct. -/
theorem selectLoop_nodup (fb : Bool) : ∀ (l : List DailyRecord) (lc : ℚ)
    (chosen : List DayPerf),
    (chosen.map DayPerf.date ++ l.map DailyRecord.date).Nodup →
    ((selectLoop fb l lc chosen).map DayPerf.date).Nodup
  | [], _, chosen => by simp [selectLoop]
  | day :: rest, lc, chosen => by
    intro h
    rcases selectLoop_cons fb day rest lc chosen with he | he <;> rw [he]
    · refine selectLoop_nodup fb rest day.close_price chosen ?_
      refine List.Nodup.sublist ?_ h
      exact (List.sublist_cons_self _ _).append_left _
    · refine selectLoop_nodup fb rest day.close_price _ ?_
      have h' : ((chosen.map DayPerf.date ++ [day.date]) ++
          rest.map DailyRecord.date).Nodup := by
        simpa [List.append_assoc] using h
      rcases List.nodup_append.1 h' with ⟨hA, hR, hdisj⟩
      have hperm : List.Perm
          ((List.insertionSort (sortRel fb)
            (chosen ++ [⟨day.date, dayChange lc day⟩])).map DayPerf.date)
          (chosen.map DayPerf.date ++ [day.date]) := by
        have hp := (List.perm_insertionSort (sortRel fb)
          (chosen ++ [⟨day.date, dayChange lc day⟩])).map DayPerf.date
        simpa using hp
      have hsub : List.Sublist
          (((List.insertionSort (sortRel fb)
            (chosen ++ [⟨day.date, dayChange lc day⟩])).dropLast).map DayPerf.date)
          ((List.insertionSort (sortRel fb)
            (chosen ++ [⟨day.date, dayChange lc day⟩])).map DayPerf.date) :=
        (List.dropLast_sublist _).map _
      refine List.nodup_append.2 ⟨?_, hR, ?_⟩
      · exact hsub.nodup (hperm.nodup_iff.2 hA)
      · intro a ha
        exact hdisj (hperm.subset (hsub.subset ha))

/-- Every entry `find_days` returns is one of the day performances of the
series under the running-reference rule. -/
theorem find_days_mem_dayPerfs (series : List DailyRecord) (n : Nat) (fb : Bool)
    (res : List DayPerf) (hres : find_days series n fb = some res) :
    ∀ p ∈ res, p ∈ dayPerfs series := by
  by_cases h0 : n = 0
  · subst h0
    simp only [find_days, if_true] at hres
    cases hres
    simp
  · match series with
    | [] => simp [find_days, h0] at hres
    | first_day :: rest =>
      by_cases hlen : rest.length < n - 1
      · simp [find_days, h0, hlen] at hres
      · rw [find_days_eq first_day rest n fb h0 (Nat.not_lt.mp hlen)] at hres
        cases hres
        intro p hp
        have hm := selectLoop_subset fb (rest.drop (n - 1))
          (lastRef first_day.open_price (rest.take (n - 1))) _ p hp
        have hdecomp :
            (⟨first_day.date, dayChange first_day.open_price first_day⟩ ::
              perfsFrom first_day.open_price (rest.take (n - 1))) ++
              perfsFrom (lastRef first_day.open_price (rest.take (n - 1)))
                (rest.drop (n - 1)) = dayPerfs (first_day :: rest) := by
          have := perfsFrom_append (rest.take (n - 1)) (rest.drop (n - 1))
            first_day.open_price
          rw [List.take_append_drop] at this
          simp [dayPerfs, this]
        rw [hdecomp] at hm
        exact hm

theorem perfsFrom_getElem_zero : ∀ (l : List DailyRecord) (ref : ℚ)
    (cur : DailyRecord), l[0]? = some cur →
    (perfsFrom ref l)[0]? = some ⟨cur.date, dayChange ref cur⟩
  | [], _, _ => by simp
  | d :: ds, ref, cur => by
    intro h
    simp only [List.getElem?_cons_zero, Option.some.injEq] at h
    subst h
    simp [perfsFrom]

theorem perfsFrom_getElem_succ : ∀ (l : List DailyRecord) (ref : ℚ) (i : Nat)
    (prev cur : DailyRecord), l[i]? = some prev → l[i + 1]? = some cur →
    (perfsFrom ref l)[i + 1]? = some ⟨cur.date, dayChange prev.close_price cur⟩
  | [], _, i, _, _ => by simp
  | d :: ds, ref, 0, prev, cur => by
    intro h1 h2
    have hd : d = prev := by simpa using h1
    have hz := perfsFrom_getElem_zero ds d.close_price cur (by simpa using h2)
    subst hd
    simpa [perfsFrom] using hz
  | d :: ds, ref, i + 1, prev, cur => by
    intro h1 h2
    have hs := perfsFrom_getElem_succ ds d.close_price i prev cur
      (by simpa using h1) (by simpa using h2)
    simpa [perfsFrom] using hs

theorem getLastD_mem : ∀ (l : List DayPerf) (d : DayPerf), l ≠ [] →
    l.getLastD d ∈ l
  | [], _, h => absurd rfl h
  | [a], d, _ => by
    rw [List.getLastD_cons]
    simp [List.getLastD]
  | a :: b :: t, d, _ => by
    rw [List.getLastD_cons]
    exact List.mem_cons_of_mem a (getLastD_mem (b :: t) a (by simp))

/-- In a working set sorted by the mode's order, every element is related to
the last (boundary) element. -/
theorem pairwise_rel_getLastD (fb : Bool) : ∀ (l : List DayPerf) (d : DayPerf),
    l ≠ [] → l.Pairwise (sortRel fb) →
    ∀ x ∈ l, sortRel fb x (l.getLastD d)
  | [], _, h, _ => absurd rfl h
  | [a], d, _, _ => by
    intro x hx
    simp only [List.mem_singleton] at hx
    subst hx
    rw [List.getLastD_cons]
    simpa [List.getLastD] using sortRel_refl fb x
  | a :: b :: t, d, _, hp => by
    intro x hx
    rcases List.pairwise_cons.1 hp with ⟨ha, hp'⟩
    rw [List.getLastD_cons]
    rcases List.mem_cons.1 hx with hx | hx
    · subst hx
      exact ha _ (getLastD_mem (b :: t) x (by simp))
    · exact pairwise_rel_getLastD fb (b :: t) a (by simp) hp' x hx

/-! ### Lemmas about the simulator -/

/-- With no missed dates the simulation loop leaves the running value
untouched and only tracks the last close. -/
theorem perfLoop_no_missed : ∀ (l : List DailyRecord) (v lc : ℚ),
    perfLoop [] l v lc false = (v, lastRef lc l)
  | [], v, lc => rfl
  | day :: rest, v, lc => by
    simp [perfLoop, lastRef, perfLoop_no_missed rest]

/-- The simulation loop only consults the missed-date set through membership
of the scanned days' dates. -/
theorem perfLoop_congr (M1 M2 : List String) :
    ∀ (l : List DailyRecord) (v lc : ℚ) (my : Bool),
    (∀ d ∈ l, (d.date ∈ M1 ↔ d.date ∈ M2)) →
    perfLoop M1 l v lc my = perfLoop M2 l v lc my
  | [], _, _, _ => fun _ => rfl
  | day :: rest, v, lc, my => by
    intro h
    have hd := h day (List.mem_cons_self day rest)
    have hrest : ∀ d ∈ rest, (d.date ∈ M1 ↔ d.date ∈ M2) :=
      fun d hdm => h d (List.mem_cons_of_mem _ hdm)
    by_cases hm : day.date ∈ M1
    · have hm2 : day.date ∈ M2 := hd.mp hm
      simp only [perfLoop, hm, hm2, not_true, and_false, if_false, if_true,
        if_pos]
      exact perfLoop_congr M1 M2 rest _ _ _ hrest
    · have hm2 : day.date ∉ M2 := fun hx => hm (hd.mpr hx)
      simp only [perfLoop, hm, hm2, not_false_iff, and_true, if_false,
        if_neg, ite_false]
      exact perfLoop_congr M1 M2 rest _ _ _ hrest

/-! ### Lemmas about header validation -/

/-- The validation loop succeeds exactly when the lower-cased actual values
coincide with the expected names (in particular the row has exactly as many
cells as there are expected names). -/
theorem validateGo_ok_iff : ∀ (es as : List String),
    (validateGo es as = .ok ↔ as.map lower = es)
  | [], [] => by simp [validateGo]
  | [], _ :: _ => by simp [validateGo]
  | _ :: _, [] => by simp [validateGo]
  | e :: es, a :: as => by
    simp only [validateGo, List.map_cons]
    by_cases he : e = lower a
    · rw [if_neg (by simpa using he)]
      rw [validateGo_ok_iff es as]
      subst he
      simp
    · rw [if_pos (by simpa using he)]
      simp [Ne.symm he]

/-- When the row has exactly as many cells as expected names, the loop never
hits a missing (`None`) value: the hidden `AttributeError` is unreachable. -/
theorem validateGo_ne_attr : ∀ (es as : List String),
    es.length = as.length → validateGo es as ≠ .attrError
  | [], [] => by simp [validateGo]
  | [], a :: as => by intro h; simp at h
  | e :: es, [] => by intro h; simp at h
  | e :: es, a :: as => by
    intro h
    simp only [validateGo]
    split
    · simp
    · exact validateGo_ne_attr es as (by simpa using h)

/-- A row with fewer cells than expected names never validates. -/
theorem validateGo_short_ne_ok : ∀ (es as : List String),
    as.length < es.length → validateGo es as ≠ .ok
  | [], as => by intro h; simp at h
  | e :: es, [] => by simp [validateGo]
  | e :: es, a :: as => by
    intro h
    simp only [validateGo]
    split
    · simp
    · exact validateGo_short_ne_ok es as (by simpa using h)

/-! ### Claim theorems -/

/-- Claim C1: refuted by evaluation (the claim asserts the working set always
holds the k extreme changes).  On `exC1` with k = 2, BEST mode, the changes
are `[0, 1/10, 1/20]`, yet `find_days` returns the days with changes
`0` and `1/10`, dropping the strictly better third day (change `1/20 > 0`):
the seeded window is never sorted, so day 3 is compared against the last
seeded change `1/10` instead of the window minimum `0` and is skipped. -/
theorem find_days_misses_better_day :
    find_days exC1 2 true = some [⟨"d1", 0⟩, ⟨"d2", 1/10⟩]
  ∧ changes exC1 = [0, 1/10, 1/20]
  ∧ (0 : ℚ) < 1/20 := by
  refine ⟨?_, ?_, by norm_num⟩
  · norm_num [find_days, exC1, seedLoop, selectLoop, dayChange]
  · norm_num [changes, dayPerfs, perfsFrom, exC1, dayChange]

/-- Claim C2: refuted by evaluation (the claim asserts one sell per maximal
run of missed days).  On `exC2` with the run `{d2, d3}` missed, the code adds
a sell value on EVERY missed day of the run (`110` entering d2 and `90`
entering d3) and buys back once (`-120` at d4), then adds the final close
`130`: the adjusted fraction is `11/10`, whereas a single sell-and-buy ledger
`110 - 120 + 130` would give `1/5`. -/
theorem perf_sells_each_day_of_missed_run :
    perf_if_missing_days exC2 [⟨"d2", 0⟩, ⟨"d3", 0⟩] = some (3/10, 11/10)
  ∧ ((110 : ℚ) - 120 + 130 - 100) / 100 = 1/5
  ∧ (11 : ℚ)/10 ≠ 1/5 := by
  refine ⟨?_, by norm_num, by norm_num⟩
  norm_num +decide [perf_if_missing_days, exC2, perfLoop]

/-- Claim C3: refuted by evaluation (the claim asserts the post-loop
`add last_close_price` does not apply when the last day was missed).  On
`exC3` with the last day `d2` missed, the code sells at `110` AND still adds
the final close `90` unconditionally, yielding adjusted fraction `1`
(value `200`), whereas being flat on the last day (value `110`) would give
`1/10`. -/
theorem perf_missed_last_day_double_counts :
    perf_if_missing_days exC3 [⟨"d2", 0⟩] = some (-(1/10), 1)
  ∧ ((110 : ℚ) - 100) / 100 = 1/10
  ∧ (1 : ℚ) ≠ 1/10 := by
  refine ⟨?_, by norm_num, by norm_num⟩
  norm_num +decide [perf_if_missing_days, exC3, perfLoop]

/-- Claim C8: for every mode and every `k ≥ 1`, a series with fewer than `k`
records makes `find_days` fail (the modelled `StopIteration` while seeding
the initial window) instead of returning a result. -/
theorem find_days_insufficient_data (series : List DailyRecord) (k : Nat)
    (fb : Bool) (hk : 1 ≤ k) (hlen : series.length < k) :
    find_days series k fb = none := by
  have h0 : ¬ k = 0 := by omega
  match series with
  | [] => simp [find_days, h0]
  | first_day :: rest =>
    have hr : rest.length < k - 1 := by
      simp only [List.length_cons] at hlen
      omega
    simp [find_days, h0, hr]

theorem find_days_insufficient_data_witness :
    1 ≤ 2 ∧ ([(⟨"d1", 100, 110⟩ : DailyRecord)] : List DailyRecord).length < 2
  ∧ find_days [⟨"d1", 100, 110⟩] 2 true = none :=
  ⟨by decide, by decide,
    find_days_insufficient_data [⟨"d1", 100, 110⟩] 2 true (by decide) (by decide)⟩

/-- Claim C6: with an empty missed-date set the two reported fractions are
identical: the loop never sells or buys, so the final value is the last
close and both fractions are `(last_close - open) / open`. -/
theorem perf_empty_missed_equal (series : List DailyRecord) (r : ℚ × ℚ)
    (h : perf_if_missing_days series [] = some r) : r.1 = r.2 := by
  match series with
  | [] => simp [perf_if_missing_days] at h
  | first_day :: rest =>
    simp only [perf_if_missing_days, List.map_nil, perfLoop_no_missed,
      zero_add] at h
    cases h
    rfl

theorem perf_empty_missed_equal_witness :
    perf_if_missing_days [⟨"a", 100, 110⟩] [] = some (1/10, 1/10)
  ∧ (((1 : ℚ)/10, (1 : ℚ)/10)).1 = (((1 : ℚ)/10, (1 : ℚ)/10)).2 :=
  ⟨by norm_num +decide [perf_if_missing_days, perfLoop],
    perf_empty_missed_equal [⟨"a", 100, 110⟩] (1/10, 1/10)
      (by norm_num +decide [perf_if_missing_days, perfLoop])⟩

/-- Claim C10: the first record's date is never tested against the
missed-date set: the simulation result is unchanged when the first date is
removed from the missed set (for a series whose later dates differ from the
first date, as the data model guarantees). -/
theorem perf_first_day_never_missed (first_day : DailyRecord)
    (rest : List DailyRecord) (missed_days : List DayPerf)
    (h : first_day.date ∉ rest.map DailyRecord.date) :
    perf_if_missing_days (first_day :: rest) missed_days =
      perf_if_missing_days (first_day :: rest)
        (missed_days.filter (fun p => p.date != first_day.date)) := by
  have hiff : ∀ d ∈ rest, (d.date ∈ missed_days.map DayPerf.date ↔
      d.date ∈ (missed_days.filter
        (fun p => p.date != first_day.date)).map DayPerf.date) := by
    intro d hd
    have hne : d.date ≠ first_day.date := by
      intro he
      exact h (he ▸ List.mem_map_of_mem DailyRecord.date hd)
    simp only [List.mem_map, List.mem_filter, bne_iff_ne]
    constructor
    · rintro ⟨p, hp, hpe⟩
      exact ⟨p, ⟨hp, by rw [hpe]; exact hne⟩, hpe⟩
    · rintro ⟨p, ⟨hp, _⟩, hpe⟩
      exact ⟨p, hp, hpe⟩
  simp only [perf_if_missing_days]
  rw [perfLoop_congr _ _ rest 0 first_day.close_price false hiff]

theorem perf_first_day_never_missed_witness :
    perf_if_missing_days [⟨"a", 100, 110⟩, ⟨"b", 110, 99⟩]
        [⟨"a", 0⟩, ⟨"b", 0⟩] =
      perf_if_missing_days [⟨"a", 100, 110⟩, ⟨"b", 110, 99⟩]
        (([⟨"a", 0⟩, ⟨"b", 0⟩] : List DayPerf).filter
          (fun p => p.date != (⟨"a", 100, 110⟩ : DailyRecord).date)) :=
  perf_first_day_never_missed ⟨"a", 100, 110⟩ [⟨"b", 110, 99⟩]
    [⟨"a", 0⟩, ⟨"b", 0⟩] (by decide)

/-- Claim C5: under `find_days`' running-reference rule the first record's
change is `(close - open) / open` using its own open; the reference after
day 1 is day 1's OPEN (not its close), so day 2's change divides by day 1's
open; from day 3 onward each day's change divides by the immediately
preceding day's close.  Moreover every entry `find_days` returns is one of
exactly these day performances. -/
theorem find_days_reference_rule (d1 d2 : DailyRecord) (rest : List DailyRecord) :
    (changes (d1 :: d2 :: rest))[0]? =
      some ((d1.close_price - d1.open_price) / d1.open_price)
  ∧ (changes (d1 :: d2 :: rest))[1]? =
      some ((d2.close_price - d1.open_price) / d1.open_price)
  ∧ (∀ (i : Nat) (prev cur : DailyRecord),
      (d1 :: d2 :: rest)[i + 1]? = some prev →
      (d1 :: d2 :: rest)[i + 2]? = some cur →
      (changes (d1 :: d2 :: rest))[i + 2]? =
        some ((cur.close_price - prev.close_price) / prev.close_price))
  ∧ (∀ (n : Nat) (fb : Bool) (res : List DayPerf),
      find_days (d1 :: d2 :: rest) n fb = some res →
      ∀ p ∈ res, p ∈ dayPerfs (d1 :: d2 :: rest)) := by
  refine ⟨?_, ?_, ?_, ?_⟩
  · simp [changes, dayPerfs, dayChange]
  · simp [changes, dayPerfs, perfsFrom, dayChange]
  · intro i prev cur h1 h2
    have h1' : (d2 :: rest)[i]? = some prev := by simpa using h1
    have h2' : (d2 :: rest)[i + 1]? = some cur := by simpa using h2
    have hs := perfsFrom_getElem_succ (d2 :: rest) d1.open_price i prev cur h1' h2'
    have hix : (changes (d1 :: d2 :: rest))[i + 2]? =
        ((perfsFrom d1.open_price (d2 :: rest))[i + 1]?).map
          DayPerf.change_percentage := by
      simp [changes, dayPerfs]
    rw [hix, hs]
    simp [dayChange]
  · exact fun n fb res hres =>
      find_days_mem_dayPerfs (d1 :: d2 :: rest) n fb res hres

theorem find_days_reference_rule_witness :
    (changes exC1)[2]? = some (((231 : ℚ)/2 - 110) / 110) :=
  (find_days_reference_rule ⟨"d1", 100, 100⟩ ⟨"d2", 105, 110⟩
    [⟨"d3", 112, 231/2⟩]).2.2.1 0 ⟨"d2", 105, 110⟩ ⟨"d3", 112, 231/2⟩
    rfl rfl

/-- Claim C4 (amended): for `1 ≤ k ≤ L` and a series with distinct dates,
`find_days` returns exactly `k` entries with no two sharing a date; the
output is sorted in the mode's direction PROVIDED the `k` seeded day
performances are already so sorted (the seed phase never sorts, so in
general — see the counterexample — the output may be unsorted). -/
theorem find_days_count_and_nodup (series : List DailyRecord) (k : Nat)
    (fb : Bool) (hk : 1 ≤ k) (hlen : k ≤ series.length)
    (hdates : (series.map DailyRecord.date).Nodup) :
    ∃ res, find_days series k fb = some res ∧ res.length = k
      ∧ (res.map DayPerf.date).Nodup
      ∧ (((dayPerfs series).take k).Pairwise (sortRel fb) →
          res.Pairwise (sortRel fb)) := by
  match series with
  | [] =>
    simp only [List.length_nil] at hlen
    omega
  | first_day :: rest =>
    have h0 : k ≠ 0 := by omega
    have hr : k - 1 ≤ rest.length := by
      simp only [List.length_cons] at hlen
      omega
    refine ⟨_, find_days_eq first_day rest k fb h0 hr, ?_, ?_, ?_⟩
    · rw [selectLoop_length]
      simp only [List.length_cons, perfsFrom_length, List.length_take]
      omega
    · apply selectLoop_nodup
      have hmap :
          (⟨first_day.date, dayChange first_day.open_price first_day⟩ ::
            perfsFrom first_day.open_price (rest.take (k - 1))).map
              DayPerf.date ++ (rest.drop (k - 1)).map DailyRecord.date =
          first_day.date :: rest.map DailyRecord.date := by
        simp [perfsFrom_map_date, List.map_take, List.map_drop]
      rw [hmap]
      simpa using hdates
    · intro hsort
      apply selectLoop_sorted
      have hseed : (dayPerfs (first_day :: rest)).take k =
          ⟨first_day.date, dayChange first_day.open_price first_day⟩ ::
            perfsFrom first_day.open_price (rest.take (k - 1)) := by
        obtain ⟨m, rfl⟩ : ∃ m, k = m + 1 := ⟨k - 1, by omega⟩
        simp [dayPerfs, List.take_succ_cons, perfsFrom_take]
      rw [hseed] at hsort
      exact hsort

theorem find_days_count_and_nodup_witness :
    ∃ res, find_days exC1 2 true = some res ∧ res.length = 2
      ∧ (res.map DayPerf.date).Nodup
      ∧ (((dayPerfs exC1).take 2).Pairwise (sortRel true) →
          res.Pairwise (sortRel true)) :=
  find_days_count_and_nodup exC1 2 true (by decide) (by decide) (by decide)

/-- Claim C4, counterexample to sortedness as stated: on `exC1` with k = 2,
BEST mode, the returned list is `[(d1, 0), (d2, 1/10)]`, which is NOT sorted
by descending `change_percentage` (no candidate after the seed is ever
inserted, and the seed phase never sorts). -/
theorem find_days_unsorted_result :
    find_days exC1 2 true = some [⟨"d1", 0⟩, ⟨"d2", 1/10⟩]
  ∧ ¬ List.Pairwise (sortRel true) [(⟨"d1", 0⟩ : DayPerf), ⟨"d2", 1/10⟩] := by
  constructor
  · norm_num [find_days, exC1, seedLoop, selectLoop, dayChange]
  · intro h
    have hx := (List.pairwise_cons.1 h).1 _ (List.mem_singleton_self _)
    simp only [sortRel, if_pos rfl] at hx
    norm_num at hx

/-- Claim C7 (amended): when the working set is sorted in the mode's order
and a candidate ties the boundary (last-ranked) entry, the candidate is
inserted, the stable sort leaves the already-sorted set followed by the new
tying element unchanged, and the pop drops precisely the newly inserted
element: the working set is retained as-is (first-seen wins).  When the
working set is NOT sorted (possible right after seeding), the dropped
element can instead be a pre-existing entry — see the counterexample. -/
theorem tie_at_boundary_keeps_first_seen (fb : Bool) (chosen : List DayPerf)
    (day : DailyRecord) (rest : List DailyRecord) (lc : ℚ)
    (hne : chosen ≠ []) (hs : chosen.Pairwise (sortRel fb))
    (htie : dayChange lc day =
      (chosen.getLastD ⟨"", 0⟩).change_percentage) :
    selectLoop fb (day :: rest) lc chosen =
      selectLoop fb rest day.close_price chosen := by
  have hsorted : List.Pairwise (sortRel fb)
      (chosen ++ [(⟨day.date, dayChange lc day⟩ : DayPerf)]) := by
    refine List.pairwise_append.2 ⟨hs, List.pairwise_singleton _ _, ?_⟩
    intro x hx y hy
    rcases List.mem_singleton.1 hy with rfl
    have hrel := pairwise_rel_getLastD fb chosen ⟨"", 0⟩ hne hs x hx
    exact (sortRel_congr_right fb x htie.symm).1 hrel
  have heq : (List.insertionSort (sortRel fb)
      (chosen ++ [⟨day.date, dayChange lc day⟩])).dropLast = chosen := by
    rw [List.Sorted.insertionSort_eq hsorted]
    simp
  rcases selectLoop_cons fb day rest lc chosen with h | h
  · exact h
  · rw [h, heq]

theorem tie_at_boundary_keeps_first_seen_witness :
    selectLoop true [⟨"z", 100, 100⟩] 100 [⟨"x", 1/10⟩, ⟨"y", 0⟩] =
      selectLoop true [] 100 [⟨"x", 1/10⟩, ⟨"y", 0⟩] :=
  tie_at_boundary_keeps_first_seen true [⟨"x", 1/10⟩, ⟨"y", 0⟩]
    ⟨"z", 100, 100⟩ [] 100 (by simp)
    (by norm_num [List.pairwise_cons, sortRel])
    (by norm_num [dayChange, List.getLastD])

/-- Claim C7, counterexample as stated: on `exC7` with k = 2, BEST mode, the
candidate `(d3, 1/10)` ties the boundary entry `(d2, 1/10)`; the claim says
the newly inserted tying element is the one dropped (set unchanged, i.e.
result `[(d1, 0), (d2, 1/10)]`), but the code returns
`[(d2, 1/10), (d3, 1/10)]`: the working set was unsorted, so the stable sort
moved `(d1, 0)` to the end and the pop dropped it instead of `(d3, 1/10)`. -/
theorem tie_drops_existing_element :
    find_days exC7 2 true = some [⟨"d2", 1/10⟩, ⟨"d3", 1/10⟩]
  ∧ some [(⟨"d2", 1/10⟩ : DayPerf), ⟨"d3", 1/10⟩] ≠
      some [(⟨"d1", 0⟩ : DayPerf), ⟨"d2", 1/10⟩] := by
  constructor
  · norm_num [find_days, exC7, seedLoop, selectLoop, dayChange,
      List.insertionSort, List.orderedInsert, sortRel]
  · intro h
    simp only [Option.some.injEq, List.cons.injEq, DayPerf.mk.injEq] at h
    exact absurd h.1.1 (by decide)

/-- Claim C9 (amended): `validate_header` accepts a row whose seven values
match `date, open, high, low, close, adj close, volume` in order up to
letter case; any reordering of the seven canonical names (other than the
identity) fails with the schema `ValueError`; any row with fewer than seven
columns fails — though not always with the schema error: a row missing only
trailing column(s) crashes with an `AttributeError` on the `None` value
instead (see the counterexample). -/
theorem validate_header_contract :
    (∀ cells : List String, cells.map lower = CSV_FIELD_NAMES →
        validate_header cells = .ok)
  ∧ (∀ cells : List String,
        (cells.map lower).Perm CSV_FIELD_NAMES →
        cells.map lower ≠ CSV_FIELD_NAMES →
        (validate_header cells).isSchemaError = true)
  ∧ (∀ cells : List String, cells.length < CSV_FIELD_NAMES.length →
        validate_header cells ≠ .ok) := by
  refine ⟨?_, ?_, ?_⟩
  · intro cells h
    exact (validateGo_ok_iff CSV_FIELD_NAMES cells).mpr h
  · intro cells hperm hne
    have hlen : CSV_FIELD_NAMES.length = cells.length := by
      have h1 := hperm.length_eq
      simpa using h1.symm
    show (validateGo CSV_FIELD_NAMES cells).isSchemaError = true
    cases hr : validateGo CSV_FIELD_NAMES cells with
    | ok => exact absurd ((validateGo_ok_iff CSV_FIELD_NAMES cells).mp hr) hne
    | schemaError e a => rfl
    | attrError => exact absurd hr (validateGo_ne_attr CSV_FIELD_NAMES cells hlen)
  · intro cells hlen
    exact validateGo_short_ne_ok CSV_FIELD_NAMES cells hlen

theorem validate_header_contract_witness :
    validate_header ["DATE", "Open", "high", "Low", "Close", "Adj Close",
      "Volume"] = .ok :=
  validate_header_contract.1 _ (by decide)

/-- Claim C9, counterexample as stated: dropping the final `Volume` column
makes `validate_header` crash on the missing (`None`) value — Python's
`AttributeError` on `None.lower()` — not the schema `ValueError` the claim
promises for a missing column. -/
theorem validate_header_missing_last_column :
    validate_header ["Date", "Open", "High", "Low", "Close", "Adj Close"] =
      .attrError
  ∧ HeaderResult.isSchemaError .attrError = false := ⟨by decide, rfl⟩
